import Mathlib

/-!
Verification of the `beard` templating engine (`src/src/lib.rs`).

The source is a Rust `macro_rules!` macro, `beard_internal`, whose ordered
arms form the grammar and whose expansions form the executor.  We embed it
shallowly:

* `Token`/`build` model the macro's input token trees and its ordered arm
  list (the Grammar/Builder layer): each `build` equation corresponds to one
  macro arm, in the source's arm order, and the catch-all models the
  "no rules expected this token" build-time failure (`MalformedTemplate`).
* `Node`/`execSeq` model the code each arm expands to (the Executor layer):
  the expansion `$output.write_all(..)?` becomes `writeAll` on an explicit
  sink state (a byte list) with a caller-supplied failure oracle, and `?`
  becomes early return threaded through `Bytes × Option ε`.
* Host code that the macro treats opaquely (expressions in `{..}` / `(..)`,
  patterns, inline-action statement blocks) is embedded as small total
  languages (`Expr`, `Pattern`) and as explicit closures (`Block.act`),
  with Rust's `to_string` / `as_ref` / `as_bytes` conversions made explicit.
-/

namespace Beard

/-- A sink's contents: a byte sequence (`Vec<u8>` grown by `write_all`). -/
abbrev Bytes := List Nat

/-- Host values that template expressions can produce.  Only the shapes the
engine actually consumes exist: `Display`-ables (strings, numbers, bools),
byte arrays (`AsRef<[u8]>`), and the option/list/pair shapes consumed by
`if let` patterns and `for` loops. -/
inductive Value where
  | str (s : String)
  | num (n : Nat)
  | boolean (b : Bool)
  | raw (b : Bytes)
  | opt (o : Option Value)
  | list (l : List Value)
  | pair (a b : Value)
deriving Repr

/-- Byte sequence of a string: models `str::as_bytes()` on the ASCII
fragment exercised here (one byte per character). -/
def strBytes (s : String) : Bytes := s.toList.map Char.toNat

/-- Rust `Display` formatting (`$statement.to_string()` in the
`$statement:block` arm).  Shapes with no `Display` impl in Rust are host
compile errors; the total model maps them to the empty string. -/
def Value.display : Value → String
  | .str s => s
  | .num n => toString n
  | .boolean b => if b then "true" else "false"
  | .raw _ => ""
  | .opt _ => ""
  | .list _ => ""
  | .pair _ _ => ""

/-- Rust `as_ref::<[u8]>()` (the `[ $statement:block ]` arm writes
`$statement.as_ref()` with no `to_string` step).  Shapes without
`AsRef<[u8]>` are host compile errors; the total model maps them to `[]`. -/
def Value.asBytes : Value → Bytes
  | .raw b => b
  | .str s => strBytes s
  | _ => []

/-- Truth of an `if (..)` condition; a non-`bool` condition is a host
compile error, modelled as `false`. -/
def Value.truth : Value → Bool
  | .boolean b => b
  | _ => false

/-- Elements of a `for .. in (..)` iterable, in its natural order; a
non-iterable is a host compile error, modelled as `[]`. -/
def Value.items : Value → List Value
  | .list l => l
  | _ => []

/-- Patterns usable in `if let $condition:pat = (..)` and
`for $value:pat in (..)`: variable and wildcard binders, `Some`/`None`,
pair destructuring, and numeric literals. -/
inductive Pattern where
  | pvar (n : String)
  | pwild
  | psome (p : Pattern)
  | pnone
  | ppair (a b : Pattern)
  | pnum (n : Nat)
deriving Repr

/-- A chained binding environment: innermost bindings first, so a child
scope is `newBindings ++ parent`. -/
abbrev Scope := List (String × Value)

/-- Name lookup in a scope; the first (innermost) binding wins. -/
def lookupVar : Scope → String → Option Value
  | [], _ => none
  | (m, v) :: rest, n => if m = n then some v else lookupVar rest n

/-- Attempt a pattern against a value: `some binds` on success (the list of
named bindings the match introduces), `none` on refutation. -/
def matchPat : Pattern → Value → Option (List (String × Value))
  | .pvar n, v => some [(n, v)]
  | .pwild, _ => some []
  | .psome p, .opt (some v) => matchPat p v
  | .psome _, _ => none
  | .pnone, .opt none => some []
  | .pnone, _ => none
  | .ppair a b, .pair x y =>
    match matchPat a x, matchPat b y with
    | some ba, some bb => some (ba ++ bb)
    | _, _ => none
  | .ppair _ _, _ => none
  | .pnum n, .num m => if n = m then some [] else none
  | .pnum _, _ => none

/-- Host expressions, treated opaquely by the engine: a variable read, a
constant, or an evaluation that fails (a `?` inside the host block
propagating an error `e : ε`). -/
inductive Expr (ε : Type) where
  | var (n : String)
  | const (v : Value)
  | failing (e : ε)

/-- Evaluate a host expression under a scope.  An unbound variable is a
host compile error in Rust; the total model reads it as the empty string. -/
def evalExpr : Expr ε → Scope → Except ε Value
  | .var n, sc => .ok ((lookupVar sc n).getD (Value.str ""))
  | .const v, _ => .ok v
  | .failing e, _ => .error e

/-- Failure oracle of the sink: given the current contents and the bytes
being written, optionally an error.  Models the `Result` of the sink's
`write_all`; on success `write_all` appends (the `Vec<u8>` sink). -/
abbrev WriteOracle (ε : Type) := Bytes → Bytes → Option ε

/-- `$output.write_all(bs)?`: on failure the contents are unchanged and the
error is propagated; on success the bytes are appended. -/
def writeAll (w : WriteOracle ε) (s bs : Bytes) : Bytes × Option ε :=
  match w s bs with
  | some e => (s, some e)
  | none => (s ++ bs, none)

/-- The always-succeeding sink (an infallible `Vec<u8>` writer). -/
def appendOracle : WriteOracle ε := fun _ _ => none

/-- A host brace-block `{ .. }`, opaque to the macro.  It carries both
readings the macro can give it: as a value-producing expression (the
`$statement:block` and `[ $statement:block ]` arms) and as a statement
block run for effect with direct access to the sink and scope (the
`| | $statement:block` / `|| $statement:block` arms). -/
structure Block (ε : Type) where
  expr : Expr ε
  act : Bytes → Scope → Bytes × Option ε

/-- The Node Model: one constructor per kind of code the macro arms expand
to.  Control-flow nodes carry nested node sequences. -/
inductive Node (ε : Type) where
  | literal (b : Bytes)
  | displayExpr (e : Expr ε)
  | bytesExpr (e : Expr ε)
  | inlineAction (act : Bytes → Scope → Bytes × Option ε)
  | conditional (c : Expr ε) (thenB : List (Node ε)) (elseB : Option (List (Node ε)))
  | patternBranch (p : Pattern) (scrut : Expr ε) (body : List (Node ε))
  | loop (p : Pattern) (iter : Expr ε) (body : List (Node ε))

/-- The scope a loop body runs in for element `v`: the pattern's bindings
chained in front of the enclosing scope.  Rust requires `for` patterns to
be irrefutable, so `matchPat` always succeeds on well-typed programs; the
`getD []` branch totalises the host-rejected refutable case. -/
def childScope (p : Pattern) (v : Value) (sc : Scope) : Scope :=
  ((matchPat p v).getD []) ++ sc

mutual

/-- Execute a node sequence in order against a scope and a sink, stopping
at the first failure (the `?` after each `write_all` and the recursive
`beard_internal!($output, $($any)*)` tail of every arm). -/
def execSeq (w : WriteOracle ε) : List (Node ε) → Scope → Bytes → Bytes × Option ε
  | [], _, s => (s, none)
  | n :: rest, sc, s =>
    match execNode w n sc s with
    | (s', some e) => (s', some e)
    | (s', none) => execSeq w rest sc s'

/-- Execute one node: each case is the expansion of one macro arm. -/
def execNode (w : WriteOracle ε) : Node ε → Scope → Bytes → Bytes × Option ε
  | .literal b, _, s => writeAll w s b
  | .displayExpr e, sc, s =>
    match evalExpr e sc with
    | .error err => (s, some err)
    | .ok v => writeAll w s (strBytes v.display)
  | .bytesExpr e, sc, s =>
    match evalExpr e sc with
    | .error err => (s, some err)
    | .ok v => writeAll w s v.asBytes
  | .inlineAction act, sc, s => act s sc
  | .conditional c tb eb, sc, s =>
    match evalExpr c sc with
    | .error err => (s, some err)
    | .ok v =>
      match v.truth, eb with
      | true, _ => execSeq w tb sc s
      | false, some els => execSeq w els sc s
      | false, none => (s, none)
  | .patternBranch p scrut body, sc, s =>
    match evalExpr scrut sc with
    | .error err => (s, some err)
    | .ok v =>
      match matchPat p v with
      | some binds => execSeq w body (binds ++ sc) s
      | none => (s, none)
  | .loop p iter body, sc, s =>
    match evalExpr iter sc with
    | .error err => (s, some err)
    | .ok v => execLoop w p body v.items sc s

/-- `for $value in $into_iter.into_iter() { .. }`: run the body once per
element in order, each iteration in a fresh child scope, aborting the loop
on the first failure. -/
def execLoop (w : WriteOracle ε) (p : Pattern) (body : List (Node ε)) :
    List Value → Scope → Bytes → Bytes × Option ε
  | [], _, s => (s, none)
  | v :: vs, sc, s =>
    match execSeq w body (childScope p v sc) s with
    | (s', some e) => (s', some e)
    | (s', none) => execLoop w p body vs sc s'

end

/-- `render`: execute a whole program from the top (the `beard!` entry
point delegating to `beard_internal!`). -/
def render (w : WriteOracle ε) (prog : List (Node ε)) (sc : Scope) (s : Bytes) :
    Bytes × Option ε :=
  execSeq w prog sc s

/-- Token trees forming the macro's input.  Brace groups come in the two
readings the macro's fragment specifiers give them: `bracesHost` is a
group parseable as a host block (`$statement:block`), `bracesTmpl` is a
group read as raw template tokens (`{ $($statement:tt)+ }` bodies).
`brackets` is a square-bracket group with its interior tokens, and the
keywords, bars, `=`, paren-wrapped host expressions (`( $e:expr )`) and
pattern fragments (`$p:pat`) are the remaining atoms. -/
inductive Token (ε : Type) where
  | strLit (s : String)
  | bar
  | barbar
  | bracesHost (b : Block ε)
  | bracesTmpl (ts : List (Token ε))
  | brackets (inner : List (Token ε))
  | kwIf
  | kwElse
  | kwLet
  | kwFor
  | kwIn
  | eq
  | parens (e : Expr ε)
  | pat (p : Pattern)

/-- Build-time errors: a template fragment that matches no macro arm.  The
unmatched token list identifies the offending fragment (the compiler's
"no rules expected this token" error pointing at the input). -/
inductive BuildError (ε : Type) where
  | malformedTemplate (frag : List (Token ε))

/-- The Grammar/Builder: the ordered arm list of `beard_internal!`.  Each
equation is one macro arm, in the source's order; the final catch-all is
the build-time rejection of fragments matching no arm.  The `tt+` bodies
of the `if`/`if let`/`for` arms require a nonempty brace group and are
parsed by recursively invoking the full grammar. -/
def build : List (Token ε) → Except (BuildError ε) (List (Node ε))
  | [] => .ok []
  | .bar :: .bar :: .bracesHost b :: rest => do
    let ns ← build rest
    .ok (.inlineAction b.act :: ns)
  | .barbar :: .bracesHost b :: rest => do
    let ns ← build rest
    .ok (.inlineAction b.act :: ns)
  | .strLit t :: rest => do
    let ns ← build rest
    .ok (.literal (strBytes t) :: ns)
  | .brackets [.bracesHost b] :: rest => do
    let ns ← build rest
    .ok (.bytesExpr b.expr :: ns)
  | .bracesHost b :: rest => do
    let ns ← build rest
    .ok (.displayExpr b.expr :: ns)
  | .kwIf :: .parens c :: .bracesTmpl (t :: ts) :: .kwElse :: .bracesTmpl (a :: as') :: rest => do
    let tb ← build (t :: ts)
    let eb ← build (a :: as')
    let ns ← build rest
    .ok (.conditional c tb (some eb) :: ns)
  | .kwIf :: .kwLet :: .pat p :: .eq :: .parens v :: .bracesTmpl (t :: ts) :: rest => do
    let body ← build (t :: ts)
    let ns ← build rest
    .ok (.patternBranch p v body :: ns)
  | .kwIf :: .parens c :: .bracesTmpl (t :: ts) :: rest => do
    let tb ← build (t :: ts)
    let ns ← build rest
    .ok (.conditional c tb none :: ns)
  | .kwFor :: .pat p :: .kwIn :: .parens it :: .bracesTmpl (t :: ts) :: rest => do
    let body ← build (t :: ts)
    let ns ← build rest
    .ok (.loop p it body :: ns)
  | ts => .error (.malformedTemplate ts)

/-- Whether a token list starts with a fragment matching some grammar rule
(including the empty input, matched by the terminating arm): the
disjunction of the ten arm shapes of `build`, in the same order. -/
def matchesAnyRule : List (Token ε) → Bool
  | [] => true
  | .bar :: .bar :: .bracesHost _ :: _ => true
  | .barbar :: .bracesHost _ :: _ => true
  | .strLit _ :: _ => true
  | .brackets [.bracesHost _] :: _ => true
  | .bracesHost _ :: _ => true
  | .kwIf :: .parens _ :: .bracesTmpl (_ :: _) :: .kwElse :: .bracesTmpl (_ :: _) :: _ => true
  | .kwIf :: .kwLet :: .pat _ :: .eq :: .parens _ :: .bracesTmpl (_ :: _) :: _ => true
  | .kwIf :: .parens _ :: .bracesTmpl (_ :: _) :: _ => true
  | .kwFor :: .pat _ :: .kwIn :: .parens _ :: .bracesTmpl (_ :: _) :: _ => true
  | _ => false

mutual

/-- No `InlineAction` node occurs in this node (at any nesting depth). -/
def nodeNoAct : Node ε → Bool
  | .literal _ => true
  | .displayExpr _ => true
  | .bytesExpr _ => true
  | .inlineAction _ => false
  | .conditional _ tb none => seqNoAct tb
  | .conditional _ tb (some els) => seqNoAct tb && seqNoAct els
  | .patternBranch _ _ body => seqNoAct body
  | .loop _ _ body => seqNoAct body

/-- No `InlineAction` node occurs in this sequence (at any nesting depth). -/
def seqNoAct : List (Node ε) → Bool
  | [] => true
  | n :: rest => nodeNoAct n && seqNoAct rest

end

/-- A host expression whose evaluation cannot fail (no `?` escaping it). -/
def Expr.total : Expr ε → Bool
  | .var _ => true
  | .const _ => true
  | .failing _ => false

mutual

/-- Every failure source inside this node is benign: its expressions never
fail to evaluate and its inline actions never return an error. -/
def nodeTotal : Node ε → Prop
  | .literal _ => True
  | .displayExpr e => e.total = true
  | .bytesExpr e => e.total = true
  | .inlineAction act => ∀ s sc, (act s sc).2 = none
  | .conditional c tb none => c.total = true ∧ seqTotal tb
  | .conditional c tb (some els) => c.total = true ∧ seqTotal tb ∧ seqTotal els
  | .patternBranch _ scrut body => scrut.total = true ∧ seqTotal body
  | .loop _ iter body => iter.total = true ∧ seqTotal body

/-- Every failure source inside this sequence is benign. -/
def seqTotal : List (Node ε) → Prop
  | [] => True
  | n :: rest => nodeTotal n ∧ seqTotal rest

end

/-- A write through the oracle never removes bytes: the previous contents
are a prefix of the new contents. -/
theorem writeAll_prefix (w : WriteOracle ε) (s bs : Bytes) :
    s <+: (writeAll w s bs).1 := by
  unfold writeAll
  cases w s bs with
  | some e => exact List.prefix_refl s
  | none => exact List.prefix_append s bs

/-- A total expression always evaluates successfully. -/
theorem evalExpr_total (e : Expr ε) (sc : Scope)
    (h : e.total = true) : ∃ v, evalExpr e sc = .ok v := by
  cases e with
  | var n => exact ⟨_, rfl⟩
  | const v => exact ⟨v, rfl⟩
  | failing er => simp [Expr.total] at h

/-- A write through a never-failing oracle succeeds. -/
theorem writeAll_ok (w : WriteOracle ε) (hw : ∀ cs bs, w cs bs = none)
    (s bs : Bytes) : writeAll w s bs = (s ++ bs, none) := by
  unfold writeAll
  rw [hw]

/-- On an action-free program the executor only ever appends to the sink,
on success and on failure alike: the incoming contents are a prefix of the
outgoing contents. -/
theorem exec_append_only (w : WriteOracle ε) :
    ∀ (ns : List (Node ε)) (sc : Scope) (s : Bytes),
      seqNoAct ns = true → s <+: (execSeq w ns sc s).1 := by
  refine execSeq.induct w
    (fun ns sc s => seqNoAct ns = true → s <+: (execSeq w ns sc s).1)
    (fun n sc s => nodeNoAct n = true → s <+: (execNode w n sc s).1)
    (fun p body vs sc s => seqNoAct body = true → s <+: (execLoop w p body vs sc s).1)
    ?_ ?_ ?_ ?_ ?_ ?_ ?_ ?_ ?_ ?_ ?_ ?_ ?_ ?_ ?_ ?_ ?_ ?_ ?_ ?_ ?_
  · intro x s _
    simp [execSeq]
  · intro n rest sc s s' e hfail ih h
    simp [seqNoAct, Bool.and_eq_true] at h
    simp [execSeq, hfail]
    simpa [hfail] using ih h.1
  · intro n rest sc s s' hok ihn ihs h
    simp [seqNoAct, Bool.and_eq_true] at h
    simp [execSeq, hok]
    exact List.IsPrefix.trans (by simpa [hok] using ihn h.1) (ihs h.2)
  · intro b x s _
    simpa [execNode] using writeAll_prefix w s b
  · intro e sc s err hev _
    simp [execNode, hev]
  · intro e sc s v hev _
    simpa [execNode, hev] using writeAll_prefix w s (strBytes v.display)
  · intro e sc s err hev _
    simp [execNode, hev]
  · intro e sc s v hev _
    simpa [execNode, hev] using writeAll_prefix w s v.asBytes
  · intro act sc s h
    simp [nodeNoAct] at h
  · intro c tb eb sc s err hev _
    simp [execNode, hev]
  · intro c tb eb sc s v hev htruth ih h
    simp [execNode, hev, htruth]
    cases eb with
    | none =>
      simp [nodeNoAct] at h
      exact ih h
    | some els =>
      simp [nodeNoAct, Bool.and_eq_true] at h
      exact ih h.1
  · intro c tb sc s v hev els hfalse ih h
    simp [nodeNoAct, Bool.and_eq_true] at h
    simp [execNode, hev, hfalse]
    exact ih h.2
  · intro c tb sc s v hev hfalse _
    simp [execNode, hev, hfalse]
  · intro p scrut body sc s err hev _
    simp [execNode, hev]
  · intro p scrut body sc s v hev binds hm ih h
    simp [nodeNoAct] at h
    simp [execNode, hev, hm]
    exact ih h
  · intro p scrut body sc s v hev hm _
    simp [execNode, hev, hm]
  · intro p iter body sc s err hev _
    simp [execNode, hev]
  · intro p iter body sc s v hev ih h
    simp [nodeNoAct] at h
    simp [execNode, hev]
    exact ih h
  · intro p body x s _
    simp [execLoop]
  · intro p body v vs sc s s' e hfail ih h
    simp [execLoop, hfail]
    simpa [hfail] using ih h
  · intro p body v vs sc s s' hok ih1 ih3 h
    simp [execLoop, hok]
    exact List.IsPrefix.trans (by simpa [hok] using ih1 h) (ih3 h)

/-- If the sink never fails, every expression is total and every inline
action is benign, then execution cannot fail: all render-time failures
originate from a write, an expression evaluation, or an inline action. -/
theorem exec_total_ok (w : WriteOracle ε) (hw : ∀ cs bs, w cs bs = none) :
    ∀ (ns : List (Node ε)) (sc : Scope) (s : Bytes),
      seqTotal ns → (execSeq w ns sc s).2 = none := by
  refine execSeq.induct w
    (fun ns sc s => seqTotal ns → (execSeq w ns sc s).2 = none)
    (fun n sc s => nodeTotal n → (execNode w n sc s).2 = none)
    (fun p body vs sc s => seqTotal body → (execLoop w p body vs sc s).2 = none)
    ?_ ?_ ?_ ?_ ?_ ?_ ?_ ?_ ?_ ?_ ?_ ?_ ?_ ?_ ?_ ?_ ?_ ?_ ?_ ?_ ?_
  · intro x s _
    simp [execSeq]
  · intro n rest sc s s' e hfail ih h
    simp [seqTotal] at h
    have := ih h.1
    rw [hfail] at this
    simp at this
  · intro n rest sc s s' hok ihn ihs h
    simp [seqTotal] at h
    simp [execSeq, hok]
    exact ihs h.2
  · intro b x s _
    simp [execNode, writeAll_ok w hw]
  · intro e sc s err hev h
    simp [nodeTotal] at h
    obtain ⟨v, hv⟩ := evalExpr_total e sc h
    rw [hev] at hv
    simp at hv
  · intro e sc s v hev _
    simp [execNode, hev, writeAll_ok w hw]
  · intro e sc s err hev h
    simp [nodeTotal] at h
    obtain ⟨v, hv⟩ := evalExpr_total e sc h
    rw [hev] at hv
    simp at hv
  · intro e sc s v hev _
    simp [execNode, hev, writeAll_ok w hw]
  · intro act sc s h
    simp [nodeTotal] at h
    simpa [execNode] using h s sc
  · intro c tb eb sc s err hev h
    have hct : c.total = true := by
      cases eb with
      | none =>
        simp [nodeTotal] at h
        exact h.1
      | some els =>
        simp [nodeTotal] at h
        exact h.1
    obtain ⟨v, hv⟩ := evalExpr_total c sc hct
    rw [hev] at hv
    simp at hv
  · intro c tb eb sc s v hev htruth ih h
    simp [execNode, hev, htruth]
    cases eb with
    | none =>
      simp [nodeTotal] at h
      exact ih h.2
    | some els =>
      simp [nodeTotal] at h
      exact ih h.2.1
  · intro c tb sc s v hev els hfalse ih h
    simp [nodeTotal] at h
    simp [execNode, hev, hfalse]
    exact ih h.2.2
  · intro c tb sc s v hev hfalse _
    simp [execNode, hev, hfalse]
  · intro p scrut body sc s err hev h
    simp [nodeTotal] at h
    obtain ⟨v, hv⟩ := evalExpr_total scrut sc h.1
    rw [hev] at hv
    simp at hv
  · intro p scrut body sc s v hev binds hm ih h
    simp [nodeTotal] at h
    simp [execNode, hev, hm]
    exact ih h.2
  · intro p scrut body sc s v hev hm _
    simp [execNode, hev, hm]
  · intro p iter body sc s err hev h
    simp [nodeTotal] at h
    obtain ⟨v, hv⟩ := evalExpr_total iter sc h.1
    rw [hev] at hv
    simp at hv
  · intro p iter body sc s v hev ih h
    simp [nodeTotal] at h
    simp [execNode, hev]
    exact ih h.2
  · intro p body x s _
    simp [execLoop]
  · intro p body v vs sc s s' e hfail ih h
    have := ih h
    rw [hfail] at this
    simp at this
  · intro p body v vs sc s s' hok ih1 ih3 h
    simp [execLoop, hok]
    exact ih3 h

/-- Unfolding of the sequencing step: run the head node, stop on its
failure, otherwise continue with the sink it produced. -/
theorem execSeq_cons (w : WriteOracle ε) (n : Node ε) (rest : List (Node ε))
    (sc : Scope) (s : Bytes) :
    execSeq w (n :: rest) sc s =
      match execNode w n sc s with
      | (s', some e) => (s', some e)
      | (s', none) => execSeq w rest sc s' := by
  simp [execSeq]

/-- One loop iteration as a fold step: a failed state is final, a live
state runs the body once in the fresh child scope for the element. -/
def loopStep (w : WriteOracle ε) (p : Pattern) (body : List (Node ε)) (sc : Scope) :
    Bytes × Option ε → Value → Bytes × Option ε
  | (s', some e), _ => (s', some e)
  | (s', none), x => execSeq w body (childScope p x sc) s'

/-- A failed fold state absorbs all remaining elements. -/
theorem loopStep_absorb (w : WriteOracle ε) (p : Pattern) (body : List (Node ε))
    (sc : Scope) (vs : List Value) (s' : Bytes) (e : ε) :
    List.foldl (loopStep w p body sc) (s', some e) vs = (s', some e) := by
  induction vs with
  | nil => rfl
  | cons v vs ih => simpa [loopStep] using ih

/-- The loop runner is the left fold of one body execution per element. -/
theorem execLoop_eq_foldl (w : WriteOracle ε) (p : Pattern) (body : List (Node ε)) :
    ∀ (vs : List Value) (sc : Scope) (s : Bytes),
      execLoop w p body vs sc s = List.foldl (loopStep w p body sc) (s, none) vs := by
  intro vs
  induction vs with
  | nil => intro sc s; simp [execLoop]
  | cons v vs ih =>
    intro sc s
    rcases hx : execSeq w body (childScope p v sc) s with ⟨s1, r⟩
    cases r with
    | some e =>
      simp [execLoop, hx, List.foldl_cons, loopStep, loopStep_absorb]
    | none =>
      simp [execLoop, hx, List.foldl_cons, loopStep]
      exact ih sc s1

/-- Claim C1: the first failure anywhere in a sequence stops execution of
every node after it, is returned unchanged to the caller, and the bytes
already written stay in the sink; a failing loop iteration likewise aborts
the whole loop with the sink as the failed iteration left it. -/
theorem render_first_failure_short_circuits (w : WriteOracle ε) :
    (∀ (ns rest : List (Node ε)) (sc : Scope) (s s' : Bytes) (e : ε),
        execSeq w ns sc s = (s', some e) →
        execSeq w (ns ++ rest) sc s = (s', some e))
    ∧ (∀ (p : Pattern) (body : List (Node ε)) (x : Value) (xs : List Value)
        (sc : Scope) (s s' : Bytes) (e : ε),
        execSeq w body (childScope p x sc) s = (s', some e) →
        execLoop w p body (x :: xs) sc s = (s', some e)) := by
  constructor
  · intro ns rest sc s s' e h
    induction ns generalizing s with
    | nil => simp [execSeq] at h
    | cons n ns ih =>
      rw [List.cons_append, execSeq_cons]
      rw [execSeq_cons] at h
      rcases hx : execNode w n sc s with ⟨s1, r⟩
      rw [hx] at h
      cases r with
      | some e1 => exact h
      | none => exact ih s1 h
  · intro p body x xs sc s s' e h
    simp [execLoop, h]

/-- Witness for C1, the spec's scenario 5: `[Literal "a";
InlineAction(fails); Literal "b"]` returns the action's failure and the
sink holds exactly the bytes of `"a"`. -/
theorem render_first_failure_short_circuits_witness :
    execSeq (@appendOracle Nat)
      ([Node.literal (strBytes "a"),
        Node.inlineAction (fun s _ => (s, some 1))] ++ [Node.literal (strBytes "b")])
      [] [] = (strBytes "a", some 1) := by
  refine (render_first_failure_short_circuits (@appendOracle Nat)).1
    [Node.literal (strBytes "a"), Node.inlineAction (fun s _ => (s, some 1))]
    [Node.literal (strBytes "b")] [] [] (strBytes "a") 1 ?_
  simp [execSeq, execNode, writeAll, appendOracle]

/-- Claim C7: a literal node writes exactly its declared bytes through the
sink's write operation, and a program of literal nodes appends exactly the
declared byte runs in declared order, with no transformation. -/
theorem literal_appends_declared_bytes :
    (∀ (w : WriteOracle ε) (b : Bytes) (sc : Scope) (s : Bytes),
        execNode w (.literal b) sc s = writeAll w s b)
    ∧ (∀ (ls : List Bytes) (sc : Scope) (s : Bytes),
        execSeq (@appendOracle ε) (ls.map Node.literal) sc s = (s ++ ls.flatten, none)) := by
  constructor
  · intro w b sc s
    simp [execNode]
  · intro ls sc s
    induction ls generalizing s with
    | nil => simp [execSeq]
    | cons b ls ih =>
      simp [execSeq, execNode, writeAll, appendOracle, ih]

/-- Run one node then stop, regardless of success or failure. -/
theorem execSeq_singleton (w : WriteOracle ε) (n : Node ε) (sc : Scope) (s : Bytes) :
    execSeq w [n] sc s = execNode w n sc s := by
  rw [execSeq_cons]
  rcases hx : execNode w n sc s with ⟨s1, r⟩
  cases r <;> simp [execSeq]

/-- Claim C3: once the iterable's value is fixed, the loop is the left
fold of exactly one body execution per element, in the iterable's order,
each in a fresh child scope binding the pattern to the element; an empty
iterable executes the body zero times and leaves the sink untouched. -/
theorem loop_once_per_element (w : WriteOracle ε) (p : Pattern) (it : Expr ε)
    (body : List (Node ε)) (vs : List Value) (sc : Scope) (s : Bytes)
    (h : evalExpr it sc = .ok (.list vs)) :
    execNode w (.loop p it body) sc s = List.foldl (loopStep w p body sc) (s, none) vs
    ∧ (vs = [] → execNode w (.loop p it body) sc s = (s, none)) := by
  have hmain : execNode w (.loop p it body) sc s = execLoop w p body vs sc s := by
    simp [execNode, h, Value.items]
  constructor
  · rw [hmain, execLoop_eq_foldl]
  · intro hvs
    subst hvs
    rw [hmain]
    simp [execLoop]

/-- Witness for C3, the spec's scenario 2: looping `item` over
`["Bubble Bath", "Unicorn Crunchy Oat"]` with body
`[" * ", {item}, "\n"]` renders one line per element, in order. -/
theorem loop_once_per_element_witness :
    execNode (@appendOracle Nat)
      (.loop (.pvar "item")
        (.const (.list [.str "Bubble Bath", .str "Unicorn Crunchy Oat"]))
        [.literal (strBytes " * "), .displayExpr (.var "item"), .literal (strBytes "\n")])
      [] []
    = (strBytes " * " ++ strBytes "Bubble Bath" ++ strBytes "\n"
        ++ strBytes " * " ++ strBytes "Unicorn Crunchy Oat" ++ strBytes "\n", none) := by
  have h := (loop_once_per_element (@appendOracle Nat) (.pvar "item")
    (.const (.list [.str "Bubble Bath", .str "Unicorn Crunchy Oat"]))
    [.literal (strBytes " * "), .displayExpr (.var "item"), .literal (strBytes "\n")]
    [.str "Bubble Bath", .str "Unicorn Crunchy Oat"] [] [] rfl).1
  rw [h]
  simp [loopStep, childScope, matchPat, execSeq, execNode, evalExpr, lookupVar,
    writeAll, appendOracle, Value.display]

/-- Claim C4: a conditional runs exactly one of its two bodies, chosen
solely by the condition's truth value at evaluation time, and an absent
`else` body behaves exactly like an empty node sequence. -/
theorem conditional_exactly_one_branch (w : WriteOracle ε) (c : Expr ε)
    (tb : List (Node ε)) (eb : Option (List (Node ε))) (sc : Scope) (s : Bytes)
    (v : Value) (h : evalExpr c sc = .ok v) :
    execNode w (.conditional c tb eb) sc s =
      (if v.truth then execSeq w tb sc s
       else
         match eb with
         | some els => execSeq w els sc s
         | none => (s, none))
    ∧ execNode w (.conditional c tb none) sc s
        = execNode w (.conditional c tb (some [])) sc s := by
  constructor
  · cases hv : v.truth with
    | true => simp [execNode, h, hv]
    | false =>
      cases eb with
      | some els => simp [execNode, h, hv]
      | none => simp [execNode, h, hv]
  · cases hv : v.truth with
    | true => simp [execNode, h, hv]
    | false => simp [execNode, h, hv, execSeq]

/-- Witness for C4, the spec's scenario 3: a false condition with an
`else` body renders exactly the `else` body; with no `else` body it
renders nothing. -/
theorem conditional_exactly_one_branch_witness :
    execNode (@appendOracle Nat)
      (.conditional (.const (.boolean false)) [.literal (strBytes "yes\n")]
        (some [.literal (strBytes "no\n")])) [] []
      = (strBytes "no\n", none)
    ∧ execNode (@appendOracle Nat)
        (.conditional (.const (.boolean false)) [.literal (strBytes "yes\n")] none) [] []
      = ([], none) := by
  have h1 := (conditional_exactly_one_branch (@appendOracle Nat)
    (.const (.boolean false)) [.literal (strBytes "yes\n")]
    (some [.literal (strBytes "no\n")]) [] [] (.boolean false) rfl).1
  have h2 := (conditional_exactly_one_branch (@appendOracle Nat)
    (.const (.boolean false)) [.literal (strBytes "yes\n")]
    (some [.literal (strBytes "no\n")]) [] [] (.boolean false) rfl).2
  constructor
  · rw [h1]
    simp [Value.truth, execSeq, execNode, writeAll, appendOracle]
  · rw [h2]
    simp [execNode, evalExpr, Value.truth, execSeq]

/-- Claim C5: a pattern branch runs its body at most once — exactly once
when the pattern matches the scrutinee's value (in a child scope holding
the match's bindings), and not at all, writing nothing, when it does
not. -/
theorem pattern_branch_at_most_once (w : WriteOracle ε) (p : Pattern)
    (scrut : Expr ε) (body : List (Node ε)) (sc : Scope) (s : Bytes) (v : Value)
    (h : evalExpr scrut sc = .ok v) :
    execNode w (.patternBranch p scrut body) sc s =
      (match matchPat p v with
       | some binds => execSeq w body (binds ++ sc) s
       | none => (s, none))
    ∧ (matchPat p v = none →
        execNode w (.patternBranch p scrut body) sc s = (s, none)) := by
  constructor
  · rcases hm : matchPat p v with _ | binds <;> simp [execNode, h, hm]
  · intro hm
    simp [execNode, h, hm]

/-- Witness for C5, the spec's scenario 4: matching `Some(value)` against
`Some(1)` renders the body once with `value` bound; against `None` the
branch renders nothing. -/
theorem pattern_branch_at_most_once_witness :
    execNode (@appendOracle Nat)
      (.patternBranch (.psome (.pvar "value")) (.const (.opt (some (.num 1))))
        [.literal (strBytes "got "), .displayExpr (.var "value"), .literal (strBytes "\n")])
      [] []
      = (strBytes "got " ++ strBytes (toString (1 : Nat)) ++ strBytes "\n", none)
    ∧ execNode (@appendOracle Nat)
        (.patternBranch (.psome (.pvar "value")) (.const (.opt none))
          [.literal (strBytes "got "), .displayExpr (.var "value"), .literal (strBytes "\n")])
        [] []
      = ([], none) := by
  have h1 := (pattern_branch_at_most_once (@appendOracle Nat) (.psome (.pvar "value"))
    (.const (.opt (some (.num 1))))
    [.literal (strBytes "got "), .displayExpr (.var "value"), .literal (strBytes "\n")]
    [] [] (.opt (some (.num 1))) rfl).1
  have h2 := (pattern_branch_at_most_once (@appendOracle Nat) (.psome (.pvar "value"))
    (.const (.opt none))
    [.literal (strBytes "got "), .displayExpr (.var "value"), .literal (strBytes "\n")]
    [] [] (.opt none) rfl).2
  constructor
  · rw [h1]
    simp [matchPat, execSeq, execNode, evalExpr, lookupVar, writeAll, appendOracle,
      Value.display]
  · exact h2 (by simp [matchPat])

/-- Claim C8: scope chaining makes a construct's bindings shadow outer
bindings of the same name inside its body only; after the construct the
continuation runs against the unchanged enclosing scope, so a
variable read after a loop or pattern branch sees the binding that
existed before it. -/
theorem scope_bindings_confined (w : WriteOracle ε) :
    (∀ (binds sc : Scope) (n : String),
        lookupVar (binds ++ sc) n =
          match lookupVar binds n with
          | some v => some v
          | none => lookupVar sc n)
    ∧ (∀ (p : Pattern) (e : Expr ε) (body rest : List (Node ε)) (sc : Scope) (s : Bytes),
        execSeq w (.loop p e body :: rest) sc s =
          match execNode w (.loop p e body) sc s with
          | (s', some er) => (s', some er)
          | (s', none) => execSeq w rest sc s')
    ∧ (∀ (p : Pattern) (e : Expr ε) (body rest : List (Node ε)) (sc : Scope) (s : Bytes),
        execSeq w (.patternBranch p e body :: rest) sc s =
          match execNode w (.patternBranch p e body) sc s with
          | (s', some er) => (s', some er)
          | (s', none) => execSeq w rest sc s')
    ∧ (∀ (p : Pattern) (e : Expr ε) (body : List (Node ε)) (sc : Scope) (s s₁ : Bytes)
        (n : String),
        execNode w (.loop p e body) sc s = (s₁, none) →
        execSeq w [.loop p e body, .displayExpr (.var n)] sc s =
          writeAll w s₁ (strBytes ((lookupVar sc n).getD (Value.str "")).display))
    ∧ (∀ (p : Pattern) (e : Expr ε) (body : List (Node ε)) (sc : Scope) (s s₁ : Bytes)
        (n : String),
        execNode w (.patternBranch p e body) sc s = (s₁, none) →
        execSeq w [.patternBranch p e body, .displayExpr (.var n)] sc s =
          writeAll w s₁ (strBytes ((lookupVar sc n).getD (Value.str "")).display)) := by
  refine ⟨?_, ?_, ?_, ?_, ?_⟩
  · intro binds sc n
    induction binds with
    | nil => simp [lookupVar]
    | cons hd tl ih =>
      rcases hd with ⟨m, v⟩
      by_cases hm : m = n
      · simp [lookupVar, hm]
      · simp [lookupVar, hm, ih]
  · intro p e body rest sc s
    exact execSeq_cons w _ rest sc s
  · intro p e body rest sc s
    exact execSeq_cons w _ rest sc s
  · intro p e body sc s s₁ n hs
    rw [execSeq_cons, hs]
    have h2 : execSeq w [Node.displayExpr (Expr.var n)] sc s₁ =
        writeAll w s₁ (strBytes ((lookupVar sc n).getD (Value.str "")).display) := by
      rw [execSeq_singleton]
      simp [execNode, evalExpr]
    exact h2
  · intro p e body sc s s₁ n hs
    rw [execSeq_cons, hs]
    have h2 : execSeq w [Node.displayExpr (Expr.var n)] sc s₁ =
        writeAll w s₁ (strBytes ((lookupVar sc n).getD (Value.str "")).display) := by
      rw [execSeq_singleton]
      simp [execNode, evalExpr]
    exact h2

/-- Witness for C8: with `x` bound to `"outer"` outside, a loop rebinding
`x` to `"inner"` displays `"inner"` inside its body, and a display of `x`
right after the loop sees `"outer"` again. -/
theorem scope_bindings_confined_witness :
    execSeq (@appendOracle Nat)
      [.loop (.pvar "x") (.const (.list [.str "inner"])) [.displayExpr (.var "x")],
       .displayExpr (.var "x")]
      [("x", .str "outer")] []
    = (strBytes "inner" ++ strBytes "outer", none) := by
  have h := (scope_bindings_confined (@appendOracle Nat)).2.2.2.1
    (.pvar "x") (.const (.list [.str "inner"])) [.displayExpr (.var "x")]
    [("x", .str "outer")] [] (strBytes "inner") "x"
    (by simp [execNode, evalExpr, Value.items, execLoop, childScope, matchPat,
      execSeq, writeAll, appendOracle, lookupVar, Value.display])
  rw [h]
  simp [lookupVar, Value.display, writeAll, appendOracle]

/-- Claim C2: a fragment matching no grammar rule is rejected at build
time with a `MalformedTemplate` error carrying the offending fragment — it
is never turned into any program, in particular never coerced to a
`Literal`; and render-time failures come only from writes, expression
evaluations, and inline actions, so when all of those are benign a render
cannot fail at all — grammar errors cannot occur during render. -/
theorem malformed_rejected_at_build_only :
    (∀ ts : List (Token ε), matchesAnyRule ts = false →
        build ts = .error (.malformedTemplate ts))
    ∧ (∀ (ts : List (Token ε)) (p : List (Node ε)), matchesAnyRule ts = false →
        build ts ≠ .ok p)
    ∧ (∀ (w : WriteOracle ε) (p : List (Node ε)) (sc : Scope) (s : Bytes),
        (∀ cs bs, w cs bs = none) → seqTotal p → (execSeq w p sc s).2 = none) := by
  have hfirst : ∀ ts : List (Token ε), matchesAnyRule ts = false →
      build ts = .error (.malformedTemplate ts) := by
    intro ts h
    rw [build.eq_def]
    split
    all_goals first
      | rfl
      | (exfalso; simp [matchesAnyRule] at h)
  refine ⟨hfirst, ?_, ?_⟩
  · intro ts p h hok
    rw [hfirst ts h] at hok
    exact Except.noConfusion hok
  · intro w p sc s hw ht
    exact exec_total_ok w hw p sc s ht

/-- Witness for C2: a stray `else` keyword matches no rule and is rejected
at build time with the fragment in the error, while a benign program
renders without any failure. -/
theorem malformed_rejected_at_build_only_witness :
    build ([.kwElse] : List (Token Nat)) = .error (.malformedTemplate [.kwElse])
    ∧ (execSeq (@appendOracle Nat) [.literal (strBytes "hi")] [] []).2 = none := by
  constructor
  · exact (@malformed_rejected_at_build_only Nat).1 [.kwElse] (by simp [matchesAnyRule])
  · exact (@malformed_rejected_at_build_only Nat).2.2 (@appendOracle Nat)
      [.literal (strBytes "hi")] [] [] (fun _ _ => rfl) (by simp [seqTotal, nodeTotal])

/-- Claim C6: a bracket-wrapped block fragment is built as `BytesExpr`,
never as `DisplayExpr` (the bracketed arm precedes the generic block arm),
and executing a `BytesExpr` writes the value's bytes directly while a
`DisplayExpr` first converts the value to its string representation. -/
theorem bracketed_block_is_bytes_expr :
    (∀ (b : Block ε) (rest : List (Token ε)),
        build (.brackets [.bracesHost b] :: rest) =
          (build rest).map (fun ns => .bytesExpr b.expr :: ns))
    ∧ (∀ (b : Block ε) (rest : List (Token ε)) (ns : List (Node ε)),
        build (.brackets [.bracesHost b] :: rest) = .ok ns →
          ns.head? = some (.bytesExpr b.expr) ∧ ∀ e, ns.head? ≠ some (.displayExpr e))
    ∧ (∀ (w : WriteOracle ε) (v : Value) (sc : Scope) (s : Bytes),
        execNode w (.bytesExpr (.const v)) sc s = writeAll w s v.asBytes
        ∧ execNode w (.displayExpr (.const v)) sc s
            = writeAll w s (strBytes v.display)) := by
  have hfirst : ∀ (b : Block ε) (rest : List (Token ε)),
      build (.brackets [.bracesHost b] :: rest) =
        (build rest).map (fun ns => .bytesExpr b.expr :: ns) := by
    intro b rest
    cases hx : build rest with
    | error e =>
      simp [build, hx, Except.map]
      rfl
    | ok ns =>
      simp [build, hx, Except.map]
      rfl
  refine ⟨hfirst, ?_, ?_⟩
  · intro b rest ns h
    rw [hfirst b rest] at h
    cases hx : build rest with
    | error e =>
      rw [hx] at h
      simp [Except.map] at h
    | ok ms =>
      rw [hx] at h
      simp [Except.map] at h
      subst h
      simp
  · intro w v sc s
    constructor <;> simp [execNode, evalExpr]

/-- Witness for C6: a bracketed block producing the raw bytes `[1, 2, 3]`
builds to a `BytesExpr` node, and executing it writes those bytes
unconverted. -/
theorem bracketed_block_is_bytes_expr_witness :
    build [Token.brackets [Token.bracesHost
        (⟨.const (.raw [1, 2, 3]), fun s _ => (s, none)⟩ : Block Nat)]]
      = .ok [.bytesExpr (.const (.raw [1, 2, 3]))]
    ∧ execNode (@appendOracle Nat) (.bytesExpr (.const (.raw [1, 2, 3]))) [] []
      = ([1, 2, 3], none) := by
  constructor
  · have h := (@bracketed_block_is_bytes_expr Nat).1
      ⟨.const (.raw [1, 2, 3]), fun s _ => (s, none)⟩ []
    rw [h]
    simp [build, Except.map]
  · have h := ((@bracketed_block_is_bytes_expr Nat).2.2 (@appendOracle Nat)
      (.raw [1, 2, 3]) [] []).1
    rw [h]
    simp [writeAll, appendOracle, Value.asBytes]

/-- Claim C9: the spaced and unspaced inline-action markers are two
spellings of the same rule: they build to the same program, and the built
programs execute identically. -/
theorem action_marker_spellings_equivalent :
    (∀ (b : Block ε) (rest : List (Token ε)),
        build (.bar :: .bar :: .bracesHost b :: rest)
          = build (.barbar :: .bracesHost b :: rest))
    ∧ (∀ (b : Block ε) (rest : List (Token ε)) (ns ns' : List (Node ε))
        (w : WriteOracle ε) (sc : Scope) (s : Bytes),
        build (.bar :: .bar :: .bracesHost b :: rest) = .ok ns →
        build (.barbar :: .bracesHost b :: rest) = .ok ns' →
        execSeq w ns sc s = execSeq w ns' sc s) := by
  have hfirst : ∀ (b : Block ε) (rest : List (Token ε)),
      build (.bar :: .bar :: .bracesHost b :: rest)
        = build (.barbar :: .bracesHost b :: rest) := by
    intro b rest
    simp [build]
  refine ⟨hfirst, ?_⟩
  intro b rest ns ns' w sc s h1 h2
  rw [hfirst b rest] at h1
  rw [h1] at h2
  injection h2 with h3
  rw [h3]

/-- Witness for C9: a concrete action block builds identically under both
spellings, and the built action program writes its bytes. -/
theorem action_marker_spellings_equivalent_witness :
    build ([.bar, .bar, .bracesHost ⟨.const (.str ""), fun s _ => (s ++ [42], none)⟩]
        : List (Token Nat))
      = build [.barbar, .bracesHost ⟨.const (.str ""), fun s _ => (s ++ [42], none)⟩]
    ∧ execSeq (@appendOracle Nat)
        [.inlineAction (fun s _ => (s ++ [42], none))] [] [] = ([42], none) := by
  constructor
  · exact (@action_marker_spellings_equivalent Nat).1
      ⟨.const (.str ""), fun s _ => (s ++ [42], none)⟩ []
  · have h := (@action_marker_spellings_equivalent Nat).2
      ⟨.const (.str ""), fun s _ => (s ++ [42], none)⟩ []
      [.inlineAction (fun s _ => (s ++ [42], none))]
      [.inlineAction (fun s _ => (s ++ [42], none))]
      (@appendOracle Nat) [] [] (by simp [build]; rfl) (by simp [build]; rfl)
    exact h.trans (by simp [execSeq, execNode])

/-- Claim C10: on a program with no inline actions, every execution —
successful or failed — only appends to the sink: the prior contents are an
unchanged prefix, and the final contents are the prior contents followed by
exactly the bytes the executed nodes produced. -/
theorem executor_appends_only (w : WriteOracle ε) (p : List (Node ε)) (sc : Scope)
    (s : Bytes) (h : seqNoAct p = true) :
    s <+: (execSeq w p sc s).1
    ∧ (execSeq w p sc s).1 = s ++ (execSeq w p sc s).1.drop s.length := by
  have hpre := exec_append_only w p sc s h
  refine ⟨hpre, ?_⟩
  obtain ⟨u, hu⟩ := hpre
  rw [← hu, List.drop_left]

/-- Witness for C10: under an always-failing sink the failed execution
leaves the prior contents in place as a prefix of themselves. -/
theorem executor_appends_only_witness :
    ([5] : Bytes) <+:
      (execSeq (fun _ _ => some 9) [(.literal [1, 2] : Node Nat)] [] [5]).1
    ∧ (execSeq (fun _ _ => some 9) [(.literal [1, 2] : Node Nat)] [] [5]).1
      = [5] ++ (execSeq (fun _ _ => some 9)
          [(.literal [1, 2] : Node Nat)] [] [5]).1.drop [5].length := by
  exact executor_appends_only (fun _ _ => some 9) [.literal [1, 2]] [] [5]
    (by simp [seqNoAct, nodeNoAct])

end Beard
